import Mathlib

/-!
Verification of the option-chain engine of `src/main.py` (Angel options mobile app).

The development shallowly embeds the non-UI core of the source:
the chain selector `get_chain_data`, the batched quote fetcher `get_batch_quotes`,
the instrument-master cache `load_token_master`, and the Black-Scholes pricing
engine (`norm_pdf`, `norm_cdf`, `d1_d2`, `black_scholes_price`, `calculate_delta`,
`calculate_implied_volatility`).  Python floats are modelled as rationals where the
code only compares and slices, and as real numbers where it evaluates
transcendental functions (`math.log`, `math.exp`, `math.erf`, `math.sqrt`).
Network and filesystem effects are abstracted by explicit oracle arguments
(`Option`-valued fetch/download functions) and an explicit cache-file state.
-/

namespace AngelOptions

/-! ## Chain selector (src/main.py:194-233) -/

/-- An instrument record as held in `state.master_data` (after the normalization in
`load_token_master`): exactly the fields `get_chain_data` reads. -/
structure Instrument where
  token : String
  exch_seg : String
  name : String
  expiry : String
  symbol : String
  strike_real : ℚ
deriving DecidableEq

/-- The candidate filter of `get_chain_data` (src/main.py:202-205):
keep records matching the requested underlying name and expiry. -/
def chainCandidates (master : List Instrument) (symbol expiry : String) : List Instrument :=
  master.filter fun x => decide (x.name = symbol ∧ x.expiry = expiry)

/-- `sorted(list(set(x['strike_real'] for x in candidates)))` (src/main.py:210):
the distinct strikes, in ascending order. -/
def uniqueStrikes (master : List Instrument) (symbol expiry : String) : List ℚ :=
  List.insertionSort (· ≤ ·)
    ((chainCandidates master symbol expiry).map (fun x => x.strike_real)).dedup

/-- Python's builtin `abs` as applied to the float difference at src/main.py:217,
written out so that it evaluates on rational literals. -/
def ratAbs (q : ℚ) : ℚ := if q < 0 then -q else q

/-- The ATM scan loop of `get_chain_data` (src/main.py:213-220).  The accumulator
`none` models the initial `min_diff = float('inf')`, below which every difference
compares strictly; `i` is the position of the head of the remaining list and `atm`
the best index so far. -/
def atmAux (spot : ℚ) : List ℚ → ℕ → ℕ → Option ℚ → ℕ
  | [], _, atm, _ => atm
  | s :: rest, i, _, none => atmAux spot rest (i + 1) i (some (ratAbs (s - spot)))
  | s :: rest, i, atm, some m =>
    if ratAbs (s - spot) < m then atmAux spot rest (i + 1) i (some (ratAbs (s - spot)))
    else atmAux spot rest (i + 1) atm (some m)

/-- The index `atm_index` computed at src/main.py:214-220. -/
def atmIndex (spot : ℚ) (strikes : List ℚ) : ℕ := atmAux spot strikes 0 0 none

/-- The clamped symmetric slice `unique_strikes[start_idx:end_idx]`
(src/main.py:222-227): `start_idx = max(0, atm - count)` is natural subtraction,
`end_idx = min(len(unique_strikes), atm + count + 1)`. -/
def selectedStrikes (master : List Instrument) (symbol expiry : String) (spot : ℚ)
    (count : ℕ) : List ℚ :=
  let us := uniqueStrikes master symbol expiry
  let atm := atmIndex spot us
  (us.take (min us.length (atm + count + 1))).drop (atm - count)

/-- `get_chain_data` (src/main.py:194-233); `count` is `state.strike_count`.
The final `final_data.sort(key=...)` is a stable ascending sort by `strike_real`,
modelled by `List.insertionSort` with the non-strict key order. -/
def get_chain_data (master : List Instrument) (symbol expiry : String) (spot : ℚ)
    (count : ℕ) : List Instrument :=
  if spot = 0 ∨ expiry = "" then []
  else
    let candidates := chainCandidates master symbol expiry
    if candidates.isEmpty then []
    else
      if (uniqueStrikes master symbol expiry).isEmpty then []
      else
        let selected := selectedStrikes master symbol expiry spot count
        List.insertionSort (fun a b => a.strike_real ≤ b.strike_real)
          (candidates.filter fun x => decide (x.strike_real ∈ selected))

instance : IsTotal Instrument (fun a b => a.strike_real ≤ b.strike_real) :=
  ⟨fun a b => le_total a.strike_real b.strike_real⟩

instance : IsTrans Instrument (fun a b => a.strike_real ≤ b.strike_real) :=
  ⟨fun _ _ _ h1 h2 => le_trans h1 h2⟩

/-- The instrument set of the C3 scenario: five NIFTY strikes 23800..24200 for
one expiry. -/
def scenarioMaster : List Instrument :=
  [⟨"t1", "NFO", "NIFTY", "09OCT2026", "NIFTY23800CE", 23800⟩,
   ⟨"t2", "NFO", "NIFTY", "09OCT2026", "NIFTY23900CE", 23900⟩,
   ⟨"t3", "NFO", "NIFTY", "09OCT2026", "NIFTY24000CE", 24000⟩,
   ⟨"t4", "NFO", "NIFTY", "09OCT2026", "NIFTY24100CE", 24100⟩,
   ⟨"t5", "NFO", "NIFTY", "09OCT2026", "NIFTY24200CE", 24200⟩]

/-! ## Batched quote fetcher (src/main.py:157-176) -/

/-- One element of the `fetched` array of a quote response (src/main.py:169-174).
`symbolToken = none` models a record with no `symbolToken` key (`item.get` yields
`None`). -/
structure QuoteItem where
  symbolToken : Option String
  ltp : ℚ
  close : ℚ
deriving DecidableEq

/-- The loop body that records one fetched quote into `results`
(src/main.py:170-174): prefer `ltp`, falling back to `close` when it is `0`,
divide by `100` above `50000`, and store only under a truthy token (Python's
`if t:` rejects both `None` and the empty string).  The result map is an
association list; prepending shadows older entries, which matches dict
assignment under `List.lookup`. -/
def processItem (results : List (String × ℚ)) (item : QuoteItem) : List (String × ℚ) :=
  let ltp := item.ltp
  let ltp := if ltp = 0 then item.close else ltp
  let ltp := if ltp > 50000 then ltp / 100 else ltp
  match item.symbolToken with
  | none => results
  | some t => if t = "" then results else (t, ltp) :: results

/-- The chunking loop `str_tokens[i:i+chunk_size]` of src/main.py:161-162, fuelled
by the list length (sufficient fuel for any positive chunk size). -/
def chunksOfAux (n : ℕ) : ℕ → List String → List (List String)
  | 0, _ => []
  | _, [] => []
  | fuel + 1, l => l.take n :: chunksOfAux n fuel (l.drop n)

/-- The list of chunks `get_batch_quotes` iterates over. -/
def chunksOf (n : ℕ) (l : List String) : List (List String) := chunksOfAux n l.length l

/-- One chunk iteration of `get_batch_quotes` (src/main.py:163-175).  `fetch`
abstracts the POST request plus JSON decoding; `none` models a raised exception or
a missing/false `status`, whose `except: pass` discards that chunk only. -/
def processChunk (fetch : List String → Option (List QuoteItem))
    (results : List (String × ℚ)) (chunk : List String) : List (String × ℚ) :=
  match fetch chunk with
  | none => results
  | some items => items.foldl processItem results

/-- `get_batch_quotes` (src/main.py:157-176), with `chunk_size = 20` exactly as in
the source (line 159).  Tokens are stringified and stripped before chunking. -/
def get_batch_quotes (fetch : List String → Option (List QuoteItem))
    (tokens : List String) : List (String × ℚ) :=
  (chunksOf 20 (tokens.map String.trim)).foldl (processChunk fetch) []

/-- Number of quote requests issued by `get_batch_quotes`: one per chunk of the
loop at src/main.py:161. -/
def numChunkCalls (tokens : List String) : ℕ :=
  (chunksOf 20 (tokens.map String.trim)).length

/-! ## Instrument-master cache (src/main.py:108-137) -/

/-- A raw master-file record with the fields `load_token_master` reads
(src/main.py:124-131).  `strike = none` models a strike field that `float()`
cannot parse (handled by the `except` at line 131). -/
structure RawItem where
  instrumenttype : String
  name : String
  expiry : String
  symbol : String
  token : String
  exch_seg : String
  strike : Option ℚ
deriving DecidableEq

/-- A record as persisted in the cache file: the raw fields after the in-place
normalization of src/main.py:128-131, plus the derived `strike_real`. -/
structure NormItem where
  instrumenttype : String
  name : String
  expiry : String
  symbol : String
  token : String
  exch_seg : String
  strike : Option ℚ
  strike_real : ℚ
deriving DecidableEq

/-- `INSTRUMENTS.keys()` (src/main.py:25-31), the allowed underlying names. -/
def allowedNames : List String := ["NIFTY", "BANKNIFTY", "FINNIFTY", "SENSEX", "MIDCPNIFTY"]

/-- The in-place normalization of one retained record (src/main.py:128-131):
token stripped of any trailing `.`-suffix, exchange segment uppercased and
trimmed, strike divided by 100 (0 when unparseable). -/
def normalizeItem (it : RawItem) : NormItem :=
  { instrumenttype := it.instrumenttype
    name := it.name
    expiry := it.expiry
    symbol := it.symbol
    token := ((it.token.splitOn ".").headD "").trim
    exch_seg := it.exch_seg.toUpper.trim
    strike := it.strike
    strike_real := match it.strike with | some q => q / 100 | none => 0 }

/-- The filter-and-normalize pass of the download path (src/main.py:122-132). -/
def filterMaster (data : List RawItem) : List NormItem :=
  (data.filter fun it =>
      decide ((it.instrumenttype = "OPTIDX" ∨ it.instrumenttype = "OPTSTK")
        ∧ it.name ∈ allowedNames)).map normalizeItem

/-- The cache file state: `contents = none` models a missing or unreadable file
(covered by the `except: pass` at src/main.py:115); `ageHours` is
`datetime.now() - mtime` expressed in hours. -/
structure CacheFS where
  contents : Option (List NormItem)
  ageHours : ℚ
deriving DecidableEq

/-- `load_token_master` (src/main.py:108-137) as a state transformer.  `download`
abstracts the HTTP GET plus JSON parse of the master file (`none` = failure, which
returns `[]` and leaves the cache file untouched).  A fresh enough cache file
(strictly under 12 hours) is returned as-is; otherwise a successful download
writes the filtered list and resets the file age to `0`. -/
def load_token_master (fs : CacheFS) (download : Option (List RawItem)) :
    List NormItem × CacheFS :=
  match fs.contents with
  | some items =>
    if fs.ageHours < 12 then (items, fs)
    else
      match download with
      | none => ([], fs)
      | some data => (filterMaster data, ⟨some (filterMaster data), 0⟩)
  | none =>
    match download with
    | none => ([], fs)
    | some data => (filterMaster data, ⟨some (filterMaster data), 0⟩)

/-- A sample raw master record, used to instantiate cache facts on concrete
data: an NFO index option whose token carries a fractional suffix and whose
exchange segment is lowercased with a stray space. -/
def sampleRaw : RawItem :=
  { instrumenttype := "OPTIDX"
    name := "NIFTY"
    expiry := "09OCT2026"
    symbol := "NIFTY09OCT26CE"
    token := "43854.000000"
    exch_seg := "nfo "
    strike := some 2390000 }

/-! ## Pricing engine (src/main.py:33-74)

Python floats are idealized as real numbers; `math.erf` is modelled by the error
function written as its defining integral.  `option_type` stays a `String`: the
source compares it against `"CE"` and treats anything else as a put. -/

noncomputable section

/-- The source's own constant `PI = 3.141592653589793` (src/main.py:34), used by
`norm_pdf` (the code does not use `math.pi` there). -/
def PI : ℝ := 3.141592653589793

/-- `norm_pdf` (src/main.py:36-37). -/
def norm_pdf (x : ℝ) : ℝ :=
  (1 / Real.sqrt (2 * PI)) * Real.exp (-0.5 * x * x)

/-- `math.erf`, used by `norm_cdf` (src/main.py:40): the error function
`erf x = (2/sqrt pi) * integral of exp(-t^2) from 0 to x`. -/
def erf (x : ℝ) : ℝ :=
  (2 / Real.sqrt Real.pi) * ∫ t in (0:ℝ)..x, Real.exp (-t ^ 2)

/-- `norm_cdf` (src/main.py:39-40): `0.5 * (1 + erf(x / sqrt 2))`. -/
def norm_cdf (x : ℝ) : ℝ := 0.5 * (1 + erf (x / Real.sqrt 2))

/-- `d1_d2` (src/main.py:42-46); the `(None, None)` pair is modelled by `none`. -/
def d1_d2 (S K T r sigma : ℝ) : Option (ℝ × ℝ) :=
  if T ≤ 0 ∨ S ≤ 0 ∨ K ≤ 0 ∨ sigma ≤ 0 then none
  else
    let d1 := (Real.log (S / K) + (r + 0.5 * sigma ^ 2) * T) / (sigma * Real.sqrt T)
    some (d1, d1 - sigma * Real.sqrt T)

/-- `black_scholes_price` (src/main.py:48-55). -/
def black_scholes_price (S K T r sigma : ℝ) (option_type : String) : ℝ :=
  if T ≤ 0 then (if option_type = "CE" then max 0 (S - K) else max 0 (K - S))
  else
    match d1_d2 S K T r sigma with
    | none => 0
    | some (d1, d2) =>
      if option_type = "CE" then
        S * norm_cdf d1 - K * Real.exp (-r * T) * norm_cdf d2
      else
        K * Real.exp (-r * T) * norm_cdf (-d2) - S * norm_cdf (-d1)

/-- `calculate_delta` (src/main.py:57-61). -/
def calculate_delta (S K T r sigma : ℝ) (option_type : String) : ℝ :=
  match d1_d2 S K T r sigma with
  | none => 0
  | some (d1, _) => if option_type = "CE" then norm_cdf d1 else norm_cdf d1 - 1

/-- The Newton-Raphson loop of `calculate_implied_volatility` (src/main.py:63-74),
by remaining iteration count.  A `break` (degenerate `d1` or `|vega| < 1e-5`) and
loop exhaustion land on the floored `max(0.01, v)`; the tolerance path
`if abs(diff) < 0.01: return v` returns `v` unfloored, as in the source. -/
def ivLoop (price S K T r : ℝ) (option_type : String) : ℕ → ℝ → ℝ
  | 0, v => max 0.01 v
  | n + 1, v =>
    let p := black_scholes_price S K T r v option_type
    match d1_d2 S K T r v with
    | none => max 0.01 v
    | some (d1, _) =>
      let vega := S * Real.sqrt T * norm_pdf d1
      let diff := price - p
      if |diff| < 0.01 then v
      else if |vega| < 0.00001 then max 0.01 v
      else ivLoop price S K T r option_type n (v + diff / vega)

/-- `calculate_implied_volatility` (src/main.py:63-74): seed `v = 0.5`, at most 5
iterations. -/
def calculate_implied_volatility (price S K T r : ℝ) (option_type : String) : ℝ :=
  ivLoop price S K T r option_type 5 0.5

end

/-! ## Claim C1: intrinsic value at or past expiry -/

/-- Claim C1: for every `S`, `K`, `r`, `sigma` and every `T ≤ 0`,
`black_scholes_price` returns the intrinsic value — `max (S-K) 0` for `"CE"` and
`max (K-S) 0` for `"PE"` — regardless of whether `S`, `K` or `sigma` are
non-positive. -/
theorem price_at_expiry_intrinsic (S K T r sigma : ℝ) (hT : T ≤ 0) :
    black_scholes_price S K T r sigma "CE" = max (S - K) 0 ∧
    black_scholes_price S K T r sigma "PE" = max (K - S) 0 := by
  constructor <;>
    (unfold black_scholes_price; rw [if_pos hT]; simp [max_comm])

/-- Witness for C1 at `S=5, K=3, T=0`: the expired in-the-money call is worth `2`
and the corresponding put `0`. -/
theorem price_at_expiry_intrinsic_witness :
    black_scholes_price 5 3 0 1 1 "CE" = 2 ∧ black_scholes_price 5 3 0 1 1 "PE" = 0 := by
  have h := price_at_expiry_intrinsic 5 3 0 1 1 le_rfl
  rw [h.1, h.2]
  norm_num

/-! ## Claim C2: put-call parity -/

/-- The error function is odd. -/
theorem erf_neg (x : ℝ) : erf (-x) = -erf x := by
  have h : (∫ t in (0:ℝ)..(-x), Real.exp (-t ^ 2))
      = -∫ t in (0:ℝ)..x, Real.exp (-t ^ 2) := by
    have h1 : (∫ t in (0:ℝ)..(-x), Real.exp (-t ^ 2))
        = ∫ t in (0:ℝ)..(-x), Real.exp (-(-t) ^ 2) := by
      congr 1
      ext t
      rw [neg_sq]
    rw [h1, intervalIntegral.integral_comp_neg fun t => Real.exp (-t ^ 2),
      neg_neg, neg_zero]
    exact intervalIntegral.integral_symm 0 x
  unfold erf
  rw [h]
  ring

/-- The normal CDF of `x` and of `-x` sum to one. -/
theorem norm_cdf_add_neg (x : ℝ) : norm_cdf x + norm_cdf (-x) = 1 := by
  unfold norm_cdf
  rw [neg_div, erf_neg]
  ring

/-- Claim C2: for every `S > 0`, `K > 0`, `T > 0`, `sigma > 0` and every `r`,
`black_scholes_price` satisfies exact put-call parity over the real-valued
embedding: call minus put equals `S - K * exp (-r*T)`. -/
theorem put_call_parity (S K T r sigma : ℝ)
    (hS : 0 < S) (hK : 0 < K) (hT : 0 < T) (hsigma : 0 < sigma) :
    black_scholes_price S K T r sigma "CE" - black_scholes_price S K T r sigma "PE"
      = S - K * Real.exp (-r * T) := by
  have hcond : ¬(T ≤ 0 ∨ S ≤ 0 ∨ K ≤ 0 ∨ sigma ≤ 0) := by
    push_neg
    exact ⟨hT, hS, hK, hsigma⟩
  set d1 := (Real.log (S / K) + (r + 0.5 * sigma ^ 2) * T) / (sigma * Real.sqrt T) with hd1
  have hd : d1_d2 S K T r sigma = some (d1, d1 - sigma * Real.sqrt T) := by
    unfold d1_d2
    rw [if_neg hcond]
  unfold black_scholes_price
  rw [if_neg (not_le.2 hT), if_neg (not_le.2 hT), hd]
  dsimp only
  rw [if_pos rfl, if_neg (by decide : ¬("PE" : String) = "CE")]
  have h1 := norm_cdf_add_neg d1
  have h2 := norm_cdf_add_neg (d1 - sigma * Real.sqrt T)
  linear_combination S * h1 - K * Real.exp (-r * T) * h2

/-- Witness for C2 at `S = K = T = sigma = 1`, `r = 0`. -/
theorem put_call_parity_witness :
    black_scholes_price 1 1 1 0 1 "CE" - black_scholes_price 1 1 1 0 1 "PE"
      = 1 - 1 * Real.exp (-0 * 1) :=
  put_call_parity 1 1 1 0 1 one_pos one_pos one_pos one_pos

/-! ## Claim C7: range of the implied-volatility solver -/


theorem exp_neg_sq_continuous : Continuous fun t : ℝ => Real.exp (-t ^ 2) :=
  Real.continuous_exp.comp ((continuous_pow 2).neg)

theorem le_exp_neg_sq (t : ℝ) : 1 - t ^ 2 ≤ Real.exp (-t ^ 2) := by
  have h := Real.add_one_le_exp (-t ^ 2)
  linarith

theorem exp_neg_sq_le (t : ℝ) : Real.exp (-t ^ 2) ≤ 1 - t ^ 2 + t ^ 4 := by
  have hpos : (0:ℝ) < 1 + t ^ 2 := by positivity
  have hmul : Real.exp (-t ^ 2) * (1 + t ^ 2) ≤ 1 := by
    have h1 : t ^ 2 + 1 ≤ Real.exp (t ^ 2) := Real.add_one_le_exp (t ^ 2)
    have h2 : Real.exp (-t ^ 2) * (1 + t ^ 2) ≤ Real.exp (-t ^ 2) * Real.exp (t ^ 2) := by
      apply mul_le_mul_of_nonneg_left _ (Real.exp_nonneg _)
      linarith
    rw [← Real.exp_add, neg_add_cancel, Real.exp_zero] at h2
    exact h2
  nlinarith [sq_nonneg (t ^ 3), Real.exp_nonneg (-t ^ 2)]

theorem integral_one_sub_sq (x : ℝ) :
    (∫ t in (0:ℝ)..x, (1 - t ^ 2)) = x - x ^ 3 / 3 := by
  rw [intervalIntegral.integral_sub (intervalIntegral.intervalIntegrable_const 1)
    (intervalIntegral.intervalIntegrable_pow 2)]
  simp [integral_pow]
  norm_num

theorem integral_one_sub_sq_add (x : ℝ) :
    (∫ t in (0:ℝ)..x, (1 - t ^ 2 + t ^ 4)) = x - x ^ 3 / 3 + x ^ 5 / 5 := by
  rw [intervalIntegral.integral_add
    ((intervalIntegral.intervalIntegrable_const 1).sub (intervalIntegral.intervalIntegrable_pow 2))
    (intervalIntegral.intervalIntegrable_pow 4)]
  rw [intervalIntegral.integral_sub (intervalIntegral.intervalIntegrable_const 1)
    (intervalIntegral.intervalIntegrable_pow 2)]
  simp [integral_pow]
  norm_num

theorem integral_exp_neg_sq_lb (x : ℝ) (hx : 0 ≤ x) :
    x - x ^ 3 / 3 ≤ ∫ t in (0:ℝ)..x, Real.exp (-t ^ 2) := by
  rw [← integral_one_sub_sq x]
  exact intervalIntegral.integral_mono_on hx
    (((intervalIntegral.intervalIntegrable_const 1).sub
      (intervalIntegral.intervalIntegrable_pow 2)))
    (exp_neg_sq_continuous.intervalIntegrable 0 x)
    (fun t _ => le_exp_neg_sq t)

theorem integral_exp_neg_sq_ub (x : ℝ) (hx : 0 ≤ x) :
    (∫ t in (0:ℝ)..x, Real.exp (-t ^ 2)) ≤ x - x ^ 3 / 3 + x ^ 5 / 5 := by
  rw [← integral_one_sub_sq_add x]
  exact intervalIntegral.integral_mono_on hx
    (exp_neg_sq_continuous.intervalIntegrable 0 x)
    (((intervalIntegral.intervalIntegrable_const 1).sub
      (intervalIntegral.intervalIntegrable_pow 2)).add
      (intervalIntegral.intervalIntegrable_pow 4))
    (fun t _ => exp_neg_sq_le t)

theorem sqrt_pi_gt : 1.7724 < Real.sqrt Real.pi := by
  rw [show (1.7724:ℝ) = 1.7724 from rfl]
  have h : (1.7724:ℝ) ^ 2 < Real.pi := by
    nlinarith [Real.pi_gt_d6]
  exact (Real.lt_sqrt (by norm_num)).2 h

theorem sqrt_pi_lt : Real.sqrt Real.pi < 1.7725 := by
  have h : Real.pi < (1.7725:ℝ) ^ 2 := by
    nlinarith [Real.pi_lt_d6]
  exact (Real.sqrt_lt' (by norm_num)).2 h

theorem sqrt_two_gt : 1.41421 < Real.sqrt 2 := by
  exact (Real.lt_sqrt (by norm_num)).2 (by norm_num)

theorem sqrt_two_lt : Real.sqrt 2 < 1.41422 := by
  exact (Real.sqrt_lt' (by norm_num)).2 (by norm_num)

theorem sqrt_twoPI_gt : 2.506628 < Real.sqrt (2 * PI) := by
  exact (Real.lt_sqrt (by norm_num)).2 (by norm_num [PI])

theorem sqrt_twoPI_lt : Real.sqrt (2 * PI) < 2.506629 := by
  exact (Real.sqrt_lt' (by norm_num)).2 (by norm_num [PI])

theorem exp_neg_le_quad (u : ℝ) (hu : 0 ≤ u) : Real.exp (-u) ≤ 1 - u + u ^ 2 := by
  have hpos : (0:ℝ) < 1 + u := by linarith
  have hmul : Real.exp (-u) * (1 + u) ≤ 1 := by
    have h1 : u + 1 ≤ Real.exp u := Real.add_one_le_exp u
    have h2 : Real.exp (-u) * (1 + u) ≤ Real.exp (-u) * Real.exp u := by
      apply mul_le_mul_of_nonneg_left _ (Real.exp_nonneg _)
      linarith
    rw [← Real.exp_add, neg_add_cancel, Real.exp_zero] at h2
    exact h2
  nlinarith [Real.exp_nonneg (-u), sq_nonneg u, pow_nonneg hu 3]

theorem erf_ge_cubic (x : ℝ) (hx : 0 ≤ x) :
    2 / Real.sqrt Real.pi * (x - x ^ 3 / 3) ≤ erf x := by
  unfold erf
  exact mul_le_mul_of_nonneg_left (integral_exp_neg_sq_lb x hx) (by positivity)

theorem erf_le_quintic (x : ℝ) (hx : 0 ≤ x) :
    erf x ≤ 2 / Real.sqrt Real.pi * (x - x ^ 3 / 3 + x ^ 5 / 5) := by
  unfold erf
  exact mul_le_mul_of_nonneg_left (integral_exp_neg_sq_ub x hx) (by positivity)

theorem erf_nonneg_of_nonneg (x : ℝ) (hx : 0 ≤ x) : 0 ≤ erf x := by
  unfold erf
  exact mul_nonneg (by positivity)
    (intervalIntegral.integral_nonneg hx (fun u _ => (Real.exp_pos _).le))

theorem erf_le_linear (x : ℝ) (hx : 0 ≤ x) : erf x ≤ 2 / Real.sqrt Real.pi * x := by
  unfold erf
  have hI : (∫ t in (0:ℝ)..x, Real.exp (-t ^ 2)) ≤ x := by
    have h1 : (∫ t in (0:ℝ)..x, Real.exp (-t ^ 2)) ≤ ∫ _ in (0:ℝ)..x, (1:ℝ) := by
      apply intervalIntegral.integral_mono_on hx
        (exp_neg_sq_continuous.intervalIntegrable 0 x)
        (intervalIntegral.intervalIntegrable_const 1)
      intro t _
      rw [show (1:ℝ) = Real.exp 0 by rw [Real.exp_zero]]
      exact Real.exp_le_exp.2 (by nlinarith [sq_nonneg t])
    simpa using h1
  exact mul_le_mul_of_nonneg_left hI (by positivity)

theorem d1_d2_some_pos {S K T r sigma : ℝ} {p : ℝ × ℝ}
    (h : d1_d2 S K T r sigma = some p) : 0 < T ∧ 0 < S ∧ 0 < K ∧ 0 < sigma := by
  unfold d1_d2 at h
  by_cases hc : T ≤ 0 ∨ S ≤ 0 ∨ K ≤ 0 ∨ sigma ≤ 0
  · rw [if_pos hc] at h
    cases h
  · push_neg at hc
    exact hc

theorem d1_d2_sym (v : ℝ) (hv : 0 < v) :
    d1_d2 (2/25) (2/25) 1 0 v = some (v / 2, -(v / 2)) := by
  unfold d1_d2
  rw [if_neg (by push_neg; exact ⟨by norm_num, by norm_num, by norm_num, hv⟩)]
  have h1 : ((2:ℝ)/25) / (2/25) = 1 := by norm_num
  simp only [h1, Real.log_one, Real.sqrt_one]
  have hd1 : ((0:ℝ) + (0 + 0.5 * v ^ 2) * 1) / (v * 1) = v / 2 := by
    field_simp
    ring
  rw [hd1]
  have h2 : v / 2 - v * 1 = -(v / 2) := by ring
  rw [h2]

theorem bsp_sym (v : ℝ) (hv : 0 < v) :
    black_scholes_price (2/25) (2/25) 1 0 v "CE"
      = 2/25 * erf (v / 2 / Real.sqrt 2) := by
  unfold black_scholes_price
  rw [if_neg (by norm_num : ¬(1:ℝ) ≤ 0), d1_d2_sym v hv]
  dsimp only
  rw [if_pos rfl]
  unfold norm_cdf
  rw [neg_div, erf_neg]
  rw [show (-(0:ℝ) * 1) = 0 by ring, Real.exp_zero]
  ring

theorem ivLoop_succ (price S K T r : ℝ) (ot : String) (n : ℕ) (v : ℝ) :
    ivLoop price S K T r ot (n + 1) v
      = let p := black_scholes_price S K T r v ot
        match d1_d2 S K T r v with
        | none => max 0.01 v
        | some (d1, _) =>
          let vega := S * Real.sqrt T * norm_pdf d1
          let diff := price - p
          if |diff| < 0.01 then v
          else if |vega| < 0.00001 then max 0.01 v
          else ivLoop price S K T r ot n (v + diff / vega) := rfl

theorem ivLoop_pos (price S K T r : ℝ) (ot : String) :
    ∀ (n : ℕ) (v : ℝ), 0 < ivLoop price S K T r ot n v := by
  intro n
  induction n with
  | zero =>
    intro v
    exact lt_max_of_lt_left (by norm_num)
  | succ n ih =>
    intro v
    rw [ivLoop_succ]
    rcases hd : d1_d2 S K T r v with _ | ⟨d1, d2⟩
    · simp only [hd]
      exact lt_max_of_lt_left (by norm_num)
    · simp only [hd]
      by_cases h1 : |price - black_scholes_price S K T r v ot| < 0.01
      · rw [if_pos h1]
        exact (d1_d2_some_pos hd).2.2.2
      · rw [if_neg h1]
        by_cases h2 : |S * Real.sqrt T * norm_pdf d1| < 0.00001
        · rw [if_pos h2]
          exact lt_max_of_lt_left (by norm_num)
        · rw [if_neg h2]
          exact ih _

theorem ivLoop_step_go (price S K T r : ℝ) (ot : String) (n : ℕ) (v d1 d2 : ℝ)
    (hd : d1_d2 S K T r v = some (d1, d2))
    (h1 : ¬|price - black_scholes_price S K T r v ot| < 0.01)
    (h2 : ¬|S * Real.sqrt T * norm_pdf d1| < 0.00001) :
    ivLoop price S K T r ot (n + 1) v
      = ivLoop price S K T r ot n
          (v + (price - black_scholes_price S K T r v ot)
            / (S * Real.sqrt T * norm_pdf d1)) := by
  rw [ivLoop_succ]
  simp only [hd]
  rw [if_neg h1, if_neg h2]

theorem ivLoop_step2 (n : ℕ) (v : ℝ) (hv0 : 0 < v) (hv1 : v < 0.01) :
    ivLoop (1/2000) (2/25) (2/25) 1 0 "CE" (n + 1) v = v := by
  have hpi1 := sqrt_pi_gt
  have hpipos : (0:ℝ) < Real.sqrt Real.pi := by linarith
  have h21 := sqrt_two_gt
  have h2pos : (0:ℝ) < Real.sqrt 2 := by linarith
  set x : ℝ := v / 2 / Real.sqrt 2 with hxdef
  have hx0 : 0 ≤ x := by
    rw [hxdef]
    positivity
  have hxub : x ≤ 0.0036 := by
    rw [hxdef, div_le_iff₀ h2pos]
    linarith
  have hfrac : 2 / Real.sqrt Real.pi ≤ 1.129 := by
    rw [div_le_iff₀ hpipos]
    linarith
  have herf_ub : erf x ≤ 0.0040645 := by
    calc erf x ≤ 2 / Real.sqrt Real.pi * x := erf_le_linear x hx0
    _ ≤ 1.129 * x := mul_le_mul_of_nonneg_right hfrac hx0
    _ ≤ 1.129 * 0.0036 := mul_le_mul_of_nonneg_left hxub (by norm_num)
    _ ≤ 0.0040645 := by norm_num
  have herf_lb : 0 ≤ erf x := erf_nonneg_of_nonneg x hx0
  have hp := bsp_sym v hv0
  rw [← hxdef] at hp
  have htol : |1/2000 - black_scholes_price (2/25) (2/25) 1 0 v "CE"| < 0.01 := by
    rw [hp, abs_lt]
    constructor <;> linarith
  rw [ivLoop_succ]
  simp only [d1_d2_sym v hv0]
  rw [if_pos htol]

set_option maxHeartbeats 1600000 in
/-- Counterexample to Claim C7 as stated: at observed price `1/2000` with
`S = K = 2/25`, `T = 1`, `r = 0`, the first Newton step from `v = 0.5` lands in
the interval `(0, 0.01)`, and the second iteration hits the `|diff| < 0.01`
early exit (src/main.py:71), which returns the estimate without the
`max(0.01, v)` floor — so the returned implied volatility is below `0.01`. -/
theorem iv_early_exit_below_floor :
    calculate_implied_volatility (1/2000) (2/25) (2/25) 1 0 "CE" < 0.01 := by
  have hpi1 := sqrt_pi_gt
  have hpi2 := sqrt_pi_lt
  have h21 := sqrt_two_gt
  have h22 := sqrt_two_lt
  have h2p1 := sqrt_twoPI_gt
  have h2p2 := sqrt_twoPI_lt
  have hpipos : (0:ℝ) < Real.sqrt Real.pi := by linarith
  have h2pos : (0:ℝ) < Real.sqrt 2 := by linarith
  have h2ppos : (0:ℝ) < Real.sqrt (2 * PI) := by linarith
  set q : ℝ := 1/4 / Real.sqrt 2 with hqdef
  have hq0 : 0 ≤ q := by
    rw [hqdef]
    positivity
  have hq2 : q ^ 2 = 1/32 := by
    rw [hqdef, div_pow, Real.sq_sqrt (by norm_num : (0:ℝ) ≤ 2)]
    norm_num
  have hq3 : q ^ 3 = q / 32 := by
    have h : q ^ 3 = q ^ 2 * q := by ring
    rw [h, hq2]
    ring
  have hq5 : q ^ 5 = q / 1024 := by
    have h : q ^ 5 = q ^ 2 * q ^ 2 * q := by ring
    rw [h, hq2]
    ring
  have hqlb : (0.17677:ℝ) < q := by
    rw [hqdef, lt_div_iff₀ h2pos]
    linarith
  have hqub : q < 0.17678 := by
    rw [hqdef, div_lt_iff₀ h2pos]
    linarith
  have hAlb : (0.19737:ℝ) ≤ erf q := by
    have hb := erf_ge_cubic q hq0
    have he : q - q ^ 3 / 3 = 95/96 * q := by
      rw [hq3]
      ring
    rw [he] at hb
    have hform : 2 / Real.sqrt Real.pi * (95/96 * q) = 2 * (95/96) * q / Real.sqrt Real.pi := by
      ring
    rw [hform] at hb
    have hnum : (0.19737:ℝ) ≤ 2 * (95/96) * q / Real.sqrt Real.pi := by
      rw [le_div_iff₀ hpipos]
      linarith
    linarith
  have hAub : erf q ≤ (0.19745:ℝ) := by
    have hb := erf_le_quintic q hq0
    have he : q - q ^ 3 / 3 + q ^ 5 / 5 = 15203/15360 * q := by
      rw [hq3, hq5]
      ring
    rw [he] at hb
    have hform : 2 / Real.sqrt Real.pi * (15203/15360 * q)
        = 2 * (15203/15360) * q / Real.sqrt Real.pi := by
      ring
    rw [hform] at hb
    have hnum : 2 * (15203/15360) * q / Real.sqrt Real.pi ≤ (0.19745:ℝ) := by
      rw [div_le_iff₀ hpipos]
      linarith
    linarith
  set E : ℝ := Real.exp (-(1/32)) with hEdef
  have hElb : (31/32:ℝ) ≤ E := by
    have h := Real.add_one_le_exp (-(1/32):ℝ)
    rw [hEdef]
    linarith
  have hEub : E ≤ (0.96973:ℝ) := by
    have h := exp_neg_le_quad (1/32) (by norm_num)
    rw [hEdef]
    calc Real.exp (-(1/32)) ≤ 1 - 1/32 + ((1:ℝ)/32) ^ 2 := h
    _ ≤ 0.96973 := by norm_num
  have hnp : norm_pdf (1/4) = 1 / Real.sqrt (2 * PI) * E := by
    unfold norm_pdf
    rw [hEdef]
    have harg : (-0.5:ℝ) * (1/4) * (1/4) = -(1/32) := by norm_num
    rw [harg]
  have hVform : (2/25:ℝ) * Real.sqrt 1 * norm_pdf (1/4) = 2/25 * E / Real.sqrt (2 * PI) := by
    rw [Real.sqrt_one, hnp]
    ring
  have hVlb : (0.030917:ℝ) ≤ 2/25 * E / Real.sqrt (2 * PI) := by
    rw [le_div_iff₀ h2ppos]
    linarith
  have hVub : (2:ℝ)/25 * E / Real.sqrt (2 * PI) ≤ 0.030950 := by
    rw [div_le_iff₀ h2ppos]
    linarith
  have hVpos' : (0:ℝ) < 2/25 * E / Real.sqrt (2 * PI) :=
    lt_of_lt_of_le (by norm_num) hVlb
  have hd1 : d1_d2 (2/25) (2/25) 1 0 (0.5:ℝ) = some (1/4, -(1/4)) := by
    have h := d1_d2_sym 0.5 (by norm_num)
    rw [show (0.5:ℝ)/2 = 1/4 by norm_num] at h
    exact h
  have hp1 : black_scholes_price (2/25) (2/25) 1 0 (0.5:ℝ) "CE" = 2/25 * erf q := by
    have h := bsp_sym 0.5 (by norm_num)
    rw [show (0.5:ℝ)/2 = 1/4 by norm_num] at h
    rw [h, hqdef]
  have h1c : ¬|(1:ℝ)/2000 - black_scholes_price (2/25) (2/25) 1 0 0.5 "CE"| < 0.01 := by
    rw [hp1, not_lt, abs_sub_comm,
      abs_of_nonneg (by linarith : (0:ℝ) ≤ 2/25 * erf q - 1/2000)]
    linarith
  have h2c : ¬|(2:ℝ)/25 * Real.sqrt 1 * norm_pdf (1/4)| < 0.00001 := by
    rw [hVform, not_lt, abs_of_nonneg (le_of_lt hVpos')]
    linarith
  unfold calculate_implied_volatility
  rw [show (5:ℕ) = 4 + 1 from rfl,
    ivLoop_step_go (1/2000) (2/25) (2/25) 1 0 "CE" 4 0.5 (1/4) (-(1/4)) hd1 h1c h2c]
  set v2 : ℝ := 0.5 + (1/2000 - black_scholes_price (2/25) (2/25) 1 0 0.5 "CE")
      / ((2/25) * Real.sqrt 1 * norm_pdf (1/4)) with hv2def
  have hv2val : v2 = 0.5 + (1/2000 - 2/25 * erf q) / (2/25 * E / Real.sqrt (2 * PI)) := by
    rw [hv2def, hp1, hVform]
  have hdV1 : -(0.5:ℝ) < (1/2000 - 2/25 * erf q) / (2/25 * E / Real.sqrt (2 * PI)) := by
    rw [lt_div_iff₀ hVpos']
    linarith
  have hdV2 : (1/2000 - 2/25 * erf q) / (2/25 * E / Real.sqrt (2 * PI)) < -(0.49:ℝ) := by
    rw [div_lt_iff₀ hVpos']
    linarith
  have hv2pos : 0 < v2 := by
    rw [hv2val]
    linarith
  have hv2lt : v2 < 0.01 := by
    rw [hv2val]
    linarith
  rw [show (4:ℕ) = 3 + 1 from rfl, ivLoop_step2 3 v2 hv2pos hv2lt]
  exact hv2lt

/-- Claim C7 (amended): `calculate_implied_volatility` always returns a strictly
positive value.  The `max(0.01, v)` floor covers the small-vega break, the
degenerate-`d1` break and loop exhaustion; the early-exit tolerance path returns
the current Newton iterate, which is positive (a defined `d1` forces
`sigma > 0`) but may lie below `0.01`. -/
theorem implied_volatility_pos (price S K T r : ℝ) (option_type : String) :
    0 < calculate_implied_volatility price S K T r option_type :=
  ivLoop_pos price S K T r option_type 5 0.5

/-! ## Claim C8: degenerate inputs with positive maturity price to 0 -/

/-- Claim C8: for every `T > 0` and every `r` and option type, if any of `S`, `K`,
`sigma` is `≤ 0`, then `black_scholes_price` returns `0.0`. -/
theorem price_degenerate_zero (S K T r sigma : ℝ) (option_type : String) (hT : 0 < T)
    (h : S ≤ 0 ∨ K ≤ 0 ∨ sigma ≤ 0) :
    black_scholes_price S K T r sigma option_type = 0 := by
  unfold black_scholes_price
  rw [if_neg (not_le.2 hT)]
  have hd : d1_d2 S K T r sigma = none := by
    unfold d1_d2
    rw [if_pos (Or.inr h)]
  rw [hd]

/-- Witness for C8 at `S = -1, K = 3, T = 1`. -/
theorem price_degenerate_zero_witness : black_scholes_price (-1) 3 1 0 1 "CE" = 0 :=
  price_degenerate_zero (-1) 3 1 0 1 "CE" (by norm_num) (Or.inl (by norm_num))

/-! ## Claim C10: delta of an expired option is 0 -/

/-- Claim C10: for every `S`, `K`, `r`, `sigma` and option type, if `T ≤ 0` then
`calculate_delta` returns `0.0` — even though `black_scholes_price` reports the
intrinsic value for the same inputs, so an expired in-the-money call does not
report delta 1. -/
theorem delta_zero_at_expiry (S K T r sigma : ℝ) (option_type : String) (hT : T ≤ 0) :
    calculate_delta S K T r sigma option_type = 0 := by
  unfold calculate_delta
  have hd : d1_d2 S K T r sigma = none := by
    unfold d1_d2
    rw [if_pos (Or.inl hT)]
  rw [hd]

/-- Witness for C10 at the expired in-the-money call `S=150, K=100, T=0`:
its delta is reported as `0`, not `1`. -/
theorem delta_zero_at_expiry_witness : calculate_delta 150 100 0 0 1 "CE" = 0 :=
  delta_zero_at_expiry 150 100 0 0 1 "CE" le_rfl

/-! ## Claim C3: the chain window is the clamped symmetric strike slice -/

/-- Claim C3: for every master list, underlying, expiry, non-zero spot and
radius, the chain window is ordered ascending by strike; the strikes of its rows
all lie in the clamped inclusive index window `[atm-radius, atm+radius]` of the
sorted distinct-strike list; every strike of that clamped window occurs on some
row of the result (no wraparound, nothing missing); the window never holds more
than `2*radius+1` distinct strikes; and in particular the NIFTY scenario with
spot 24000, strikes `[23800, 23900, 24000, 24100, 24200]` and radius 1 yields
the window `[23900, 24000, 24100]`. -/
theorem chain_window_spec (master : List Instrument) (symbol expiry : String)
    (spot : ℚ) (count : ℕ) (hspot : spot ≠ 0) (hexp : expiry ≠ "") :
    List.Sorted (fun a b : Instrument => a.strike_real ≤ b.strike_real)
        (get_chain_data master symbol expiry spot count)
  ∧ (∀ x ∈ get_chain_data master symbol expiry spot count,
        x.strike_real ∈ selectedStrikes master symbol expiry spot count)
  ∧ (∀ s ∈ selectedStrikes master symbol expiry spot count,
        ∃ x ∈ get_chain_data master symbol expiry spot count, x.strike_real = s)
  ∧ ((get_chain_data master symbol expiry spot count).map
        (fun x => x.strike_real)).dedup.length ≤ 2 * count + 1
  ∧ (get_chain_data scenarioMaster "NIFTY" "09OCT2026" 24000 1).map
        (fun x => x.strike_real) = [23900, 24000, 24100] := by
  have hscen : (get_chain_data scenarioMaster "NIFTY" "09OCT2026" 24000 1).map
      (fun x => x.strike_real) = [23900, 24000, 24100] := by
    have hus : uniqueStrikes scenarioMaster "NIFTY" "09OCT2026"
        = [23800, 23900, 24000, 24100, 24200] := by decide
    have hatm : atmIndex 24000 ([23800, 23900, 24000, 24100, 24200] : List ℚ) = 2 := by
      unfold atmIndex
      norm_num [atmAux, ratAbs]
    have hselscen : selectedStrikes scenarioMaster "NIFTY" "09OCT2026" 24000 1
        = [23900, 24000, 24100] := by
      unfold selectedStrikes
      simp only [hus]
      rw [hatm]
      decide
    unfold get_chain_data
    simp only [hselscen]
    decide
  have hgcd : get_chain_data master symbol expiry spot count
      = if (chainCandidates master symbol expiry).isEmpty then []
        else if (uniqueStrikes master symbol expiry).isEmpty then []
        else List.insertionSort (fun a b => a.strike_real ≤ b.strike_real)
          ((chainCandidates master symbol expiry).filter
            fun x => decide (x.strike_real ∈ selectedStrikes master symbol expiry spot count)) := by
    unfold get_chain_data
    rw [if_neg (not_or.2 ⟨hspot, hexp⟩)]
  by_cases hc : (chainCandidates master symbol expiry).isEmpty
  · have hus : uniqueStrikes master symbol expiry = [] := by
      unfold uniqueStrikes
      rw [List.isEmpty_iff.1 hc]
      rfl
    have hsel : selectedStrikes master symbol expiry spot count = [] := by
      unfold selectedStrikes
      rw [hus]
      simp
    have hw : get_chain_data master symbol expiry spot count = [] := by
      rw [hgcd, if_pos hc]
    refine ⟨by rw [hw]; exact List.sorted_nil, ?_, ?_, ?_, hscen⟩
    · intro x hx
      rw [hw] at hx
      cases hx
    · intro s hs
      rw [hsel] at hs
      cases hs
    · rw [hw]
      simp
  · by_cases hu : (uniqueStrikes master symbol expiry).isEmpty
    · have hsel : selectedStrikes master symbol expiry spot count = [] := by
        unfold selectedStrikes
        rw [List.isEmpty_iff.1 hu]
        simp
      have hw : get_chain_data master symbol expiry spot count = [] := by
        rw [hgcd, if_neg hc, if_pos hu]
      refine ⟨by rw [hw]; exact List.sorted_nil, ?_, ?_, ?_, hscen⟩
      · intro x hx
        rw [hw] at hx
        cases hx
      · intro s hs
        rw [hsel] at hs
        cases hs
      · rw [hw]
        simp
    · have hw : get_chain_data master symbol expiry spot count
          = List.insertionSort (fun a b => a.strike_real ≤ b.strike_real)
            ((chainCandidates master symbol expiry).filter
              fun x => decide (x.strike_real ∈ selectedStrikes master symbol expiry spot count)) := by
        rw [hgcd, if_neg hc, if_neg hu]
      have hmem2 : ∀ x ∈ get_chain_data master symbol expiry spot count,
          x.strike_real ∈ selectedStrikes master symbol expiry spot count := by
        intro x hx
        rw [hw] at hx
        rw [List.mem_insertionSort, List.mem_filter] at hx
        exact of_decide_eq_true hx.2
      refine ⟨?_, hmem2, ?_, ?_, hscen⟩
      · rw [hw]
        exact List.sorted_insertionSort _ _
      · intro s hs
        have hsub : s ∈ uniqueStrikes master symbol expiry := by
          unfold selectedStrikes at hs
          exact List.take_subset _ _ (List.drop_subset _ _ hs)
        have hmapmem : s ∈ (chainCandidates master symbol expiry).map
            (fun x => x.strike_real) := by
          unfold uniqueStrikes at hsub
          rw [List.mem_insertionSort] at hsub
          exact List.mem_dedup.1 hsub
        obtain ⟨x, hxc, hxs⟩ := List.mem_map.1 hmapmem
        refine ⟨x, ?_, hxs⟩
        rw [hw, List.mem_insertionSort, List.mem_filter]
        refine ⟨hxc, decide_eq_true ?_⟩
        rw [hxs]
        exact hs
      · have hnd_us : (uniqueStrikes master symbol expiry).Nodup := by
          unfold uniqueStrikes
          exact (List.perm_insertionSort _ _).symm.nodup (List.nodup_dedup _)
        have hnd_sel : (selectedStrikes master symbol expiry spot count).Nodup := by
          unfold selectedStrikes
          exact ((List.drop_sublist _ _).trans (List.take_sublist _ _)).nodup hnd_us
        have hsubsel : ((get_chain_data master symbol expiry spot count).map
            (fun x => x.strike_real)).dedup ⊆ selectedStrikes master symbol expiry spot count := by
          intro y hy
          rw [List.mem_dedup] at hy
          obtain ⟨x, hxw, hxy⟩ := List.mem_map.1 hy
          rw [← hxy]
          exact hmem2 x hxw
        have hlen : (selectedStrikes master symbol expiry spot count).length ≤ 2 * count + 1 := by
          unfold selectedStrikes
          rw [List.length_drop, List.length_take]
          omega
        exact le_trans (((List.nodup_dedup _).subperm hsubsel).length_le) hlen

/-- Witness for C3, instantiated on the NIFTY scenario itself. -/
theorem chain_window_spec_witness :
    List.Sorted (fun a b : Instrument => a.strike_real ≤ b.strike_real)
        (get_chain_data scenarioMaster "NIFTY" "09OCT2026" 24000 1)
  ∧ (∀ x ∈ get_chain_data scenarioMaster "NIFTY" "09OCT2026" 24000 1,
        x.strike_real ∈ selectedStrikes scenarioMaster "NIFTY" "09OCT2026" 24000 1)
  ∧ (∀ s ∈ selectedStrikes scenarioMaster "NIFTY" "09OCT2026" 24000 1,
        ∃ x ∈ get_chain_data scenarioMaster "NIFTY" "09OCT2026" 24000 1, x.strike_real = s)
  ∧ ((get_chain_data scenarioMaster "NIFTY" "09OCT2026" 24000 1).map
        (fun x => x.strike_real)).dedup.length ≤ 2 * 1 + 1
  ∧ (get_chain_data scenarioMaster "NIFTY" "09OCT2026" 24000 1).map
        (fun x => x.strike_real) = [23900, 24000, 24100] :=
  chain_window_spec scenarioMaster "NIFTY" "09OCT2026" 24000 1
    (by norm_num) (by decide)

/-! ## Claim C4: the ATM index is the first argmin of the distance to spot -/

/-- The source's `abs` model agrees with the mathematical absolute value. -/
theorem ratAbs_eq_abs (q : ℚ) : ratAbs q = |q| := by
  unfold ratAbs
  by_cases h : q < 0
  · rw [if_pos h, abs_of_neg h]
  · rw [if_neg h, abs_of_nonneg (not_lt.1 h)]

/-- Invariant of the ATM scan once the running minimum is finite: the loop either
keeps the incoming best index `atm` (when no element of `l` improves on `m`), or
returns `i` plus the first index of `l` realizing the minimal distance, which
improves on `m`. -/
theorem atmAux_spec (spot : ℚ) :
    ∀ (l : List ℚ) (i atm : ℕ) (m : ℚ),
      (atmAux spot l i atm (some m) = atm ∧ ∀ x ∈ l, m ≤ ratAbs (x - spot))
    ∨ ∃ j : Fin l.length,
        atmAux spot l i atm (some m) = i + j.val
      ∧ ratAbs (l.get j - spot) < m
      ∧ (∀ k : Fin l.length, ratAbs (l.get j - spot) ≤ ratAbs (l.get k - spot))
      ∧ (∀ k : Fin l.length, k.val < j.val → ratAbs (l.get j - spot) < ratAbs (l.get k - spot))
  | [], _, _, _ => Or.inl ⟨rfl, fun x hx => absurd hx (List.not_mem_nil x)⟩
  | s :: rest, i, atm, m => by
    have hif : atmAux spot (s :: rest) i atm (some m)
        = if ratAbs (s - spot) < m then atmAux spot rest (i + 1) i (some (ratAbs (s - spot)))
          else atmAux spot rest (i + 1) atm (some m) := rfl
    by_cases hs : ratAbs (s - spot) < m
    · have hstep : atmAux spot (s :: rest) i atm (some m)
          = atmAux spot rest (i + 1) i (some (ratAbs (s - spot))) := by
        rw [hif, if_pos hs]
      rcases atmAux_spec spot rest (i + 1) i (ratAbs (s - spot)) with
        ⟨heq, hall⟩ | ⟨j, heq, hlt, hmin, hstrict⟩
      · refine Or.inr ⟨⟨0, Nat.succ_pos _⟩, ?_, hs, ?_, ?_⟩
        · rw [hstep, heq, Nat.add_zero]
        · intro k
          rcases k with ⟨kv, hk⟩
          cases kv with
          | zero => exact le_refl _
          | succ k' =>
            exact hall _ (List.get_mem rest k' (Nat.lt_of_succ_lt_succ hk))
        · intro k hk
          exact absurd hk (Nat.not_lt_zero _)
      · refine Or.inr ⟨⟨j.val + 1, Nat.succ_lt_succ j.isLt⟩, ?_, lt_trans hlt hs, ?_, ?_⟩
        · rw [hstep, heq]
          simp only [Fin.val_mk]
          omega
        · intro k
          rcases k with ⟨kv, hk⟩
          cases kv with
          | zero => exact le_of_lt hlt
          | succ k' => exact hmin ⟨k', Nat.lt_of_succ_lt_succ hk⟩
        · intro k hklt
          rcases k with ⟨kv, hk⟩
          cases kv with
          | zero => exact hlt
          | succ k' =>
            exact hstrict ⟨k', Nat.lt_of_succ_lt_succ hk⟩ (Nat.lt_of_succ_lt_succ hklt)
    · have hstep : atmAux spot (s :: rest) i atm (some m)
          = atmAux spot rest (i + 1) atm (some m) := by
        rw [hif, if_neg hs]
      rcases atmAux_spec spot rest (i + 1) atm m with
        ⟨heq, hall⟩ | ⟨j, heq, hlt, hmin, hstrict⟩
      · refine Or.inl ⟨by rw [hstep, heq], ?_⟩
        intro x hx
        rcases List.mem_cons.1 hx with rfl | hx'
        · exact not_lt.1 hs
        · exact hall x hx'
      · refine Or.inr ⟨⟨j.val + 1, Nat.succ_lt_succ j.isLt⟩, ?_, hlt, ?_, ?_⟩
        · rw [hstep, heq]
          simp only [Fin.val_mk]
          omega
        · intro k
          rcases k with ⟨kv, hk⟩
          cases kv with
          | zero => exact le_of_lt (lt_of_lt_of_le hlt (not_lt.1 hs))
          | succ k' => exact hmin ⟨k', Nat.lt_of_succ_lt_succ hk⟩
        · intro k hklt
          rcases k with ⟨kv, hk⟩
          cases kv with
          | zero => exact lt_of_lt_of_le hlt (not_lt.1 hs)
          | succ k' =>
            exact hstrict ⟨k', Nat.lt_of_succ_lt_succ hk⟩ (Nat.lt_of_succ_lt_succ hklt)

/-- Claim C4: for every non-empty sorted list of distinct strikes and every spot,
the ATM index is an index of a strike of minimum absolute distance to the spot,
and on equal minimal distances it is the first such index — hence, the list
being sorted ascending, the lower strike. -/
theorem atm_index_min (strikes : List ℚ) (spot : ℚ) (hne : strikes ≠ [])
    (hsorted : strikes.Sorted (· ≤ ·)) (_hnodup : strikes.Nodup) :
    ∃ j : Fin strikes.length,
      atmIndex spot strikes = j.val
    ∧ (∀ k : Fin strikes.length, |strikes.get j - spot| ≤ |strikes.get k - spot|)
    ∧ (∀ k : Fin strikes.length, |strikes.get k - spot| = |strikes.get j - spot| →
        j.val ≤ k.val ∧ strikes.get j ≤ strikes.get k) := by
  rcases strikes with _ | ⟨s, rest⟩
  · exact absurd rfl hne
  · have hstep : atmIndex spot (s :: rest)
        = atmAux spot rest 1 0 (some (ratAbs (s - spot))) := rfl
    rcases atmAux_spec spot rest 1 0 (ratAbs (s - spot)) with
      ⟨heq, hall⟩ | ⟨j, heq, hlt, hmin, hstrict⟩
    · simp only [ratAbs_eq_abs] at hall
      refine ⟨⟨0, Nat.succ_pos _⟩, by rw [hstep, heq], ?_, ?_⟩
      · intro k
        rcases k with ⟨kv, hk⟩
        cases kv with
        | zero => exact le_refl _
        | succ k' => exact hall _ (List.get_mem rest k' (Nat.lt_of_succ_lt_succ hk))
      · intro k _
        refine ⟨Nat.zero_le _, ?_⟩
        exact hsorted.rel_get_of_le (by exact Nat.zero_le _)
    · simp only [ratAbs_eq_abs] at hlt hmin hstrict
      refine ⟨⟨j.val + 1, Nat.succ_lt_succ j.isLt⟩,
        by rw [hstep, heq]; simp only [Fin.val_mk]; omega, ?_, ?_⟩
      · intro k
        rcases k with ⟨kv, hk⟩
        cases kv with
        | zero => exact le_of_lt hlt
        | succ k' => exact hmin ⟨k', Nat.lt_of_succ_lt_succ hk⟩
      · intro k hdist
        rcases k with ⟨kv, hk⟩
        cases kv with
        | zero =>
          have hdist' : |s - spot| = |rest.get j - spot| := hdist
          rw [hdist'] at hlt
          exact absurd hlt (lt_irrefl _)
        | succ k' =>
          have hk' : k' < rest.length := Nat.lt_of_succ_lt_succ hk
          have hle : j.val + 1 ≤ k' + 1 := by
            by_contra hcon
            have hklt : k' < j.val := by omega
            have hj := hstrict ⟨k', hk'⟩ hklt
            have hdist' : |rest.get ⟨k', hk'⟩ - spot| = |rest.get j - spot| := hdist
            rw [hdist'] at hj
            exact lt_irrefl _ hj
          refine ⟨hle, ?_⟩
          exact hsorted.rel_get_of_le hle

/-- Witness for C4 on the strikes `[1, 2, 4]` with spot `3`: both `2` and `4` are
at distance 1 and the lower strike `2` (index 1) is chosen. -/
theorem atm_index_min_witness :
    ∃ j : Fin ([1, 2, 4] : List ℚ).length,
      atmIndex 3 [1, 2, 4] = j.val
    ∧ (∀ k : Fin ([1, 2, 4] : List ℚ).length,
        |([1, 2, 4] : List ℚ).get j - 3| ≤ |([1, 2, 4] : List ℚ).get k - 3|)
    ∧ (∀ k : Fin ([1, 2, 4] : List ℚ).length,
        |([1, 2, 4] : List ℚ).get k - 3| = |([1, 2, 4] : List ℚ).get j - 3| →
          j.val ≤ k.val ∧ ([1, 2, 4] : List ℚ).get j ≤ ([1, 2, 4] : List ℚ).get k) :=
  atm_index_min [1, 2, 4] 3 (by decide)
    (by norm_num [List.Sorted, List.pairwise_cons]) (by norm_num)

/-! ## Claim C5: chunked quote fetch and best-effort merge -/

/-- Recording one quote only prepends to the result map. -/
theorem processItem_append (results : List (String × ℚ)) (item : QuoteItem) :
    ∃ l, processItem results item = l ++ results := by
  unfold processItem
  rcases item with ⟨tok, ltp, close⟩
  rcases tok with _ | t
  · exact ⟨[], rfl⟩
  · dsimp only
    by_cases ht : t = ""
    · rw [if_pos ht]
      exact ⟨[], rfl⟩
    · rw [if_neg ht]
      exact ⟨[_], rfl⟩

/-- Processing a whole chunk response only prepends to the result map. -/
theorem foldl_processItem_append (items : List QuoteItem) :
    ∀ results, ∃ l, items.foldl processItem results = l ++ results := by
  induction items with
  | nil => exact fun results => ⟨[], rfl⟩
  | cons hd tl ih =>
    intro results
    obtain ⟨l1, h1⟩ := processItem_append results hd
    obtain ⟨l2, h2⟩ := ih (processItem results hd)
    exact ⟨l2 ++ l1, by rw [List.foldl_cons, h2, h1, List.append_assoc]⟩

/-- Processing any sequence of chunks only prepends to the result map. -/
theorem foldl_processChunk_append (fetch : List String → Option (List QuoteItem))
    (chunks : List (List String)) :
    ∀ results, ∃ l, chunks.foldl (processChunk fetch) results = l ++ results := by
  induction chunks with
  | nil => exact fun results => ⟨[], rfl⟩
  | cons c cs ih =>
    intro results
    have hstep : ∃ l, processChunk fetch results c = l ++ results := by
      unfold processChunk
      cases fetch c with
      | none => exact ⟨[], rfl⟩
      | some items => exact foldl_processItem_append items results
    obtain ⟨l1, h1⟩ := hstep
    obtain ⟨l2, h2⟩ := ih (processChunk fetch results c)
    exact ⟨l2 ++ l1, by rw [List.foldl_cons, h2, h1, List.append_assoc]⟩

/-- Looking up the key just prepended returns its value. -/
theorem lookup_cons_self (t : String) (v : ℚ) (m : List (String × ℚ)) :
    ((t, v) :: m).lookup t = some v := by
  simp [List.lookup_cons]

/-- A key present in the tail map survives any amount of prepending. -/
theorem lookup_append_of_lookup (l : List (String × ℚ)) (m : List (String × ℚ))
    (t : String) (h : ∃ p, m.lookup t = some p) :
    ∃ p, (l ++ m).lookup t = some p := by
  induction l with
  | nil => simpa using h
  | cons kv l ih =>
    rcases kv with ⟨k, v⟩
    rw [List.cons_append, List.lookup_cons]
    cases hk : t == k
    · exact ih
    · exact ⟨v, rfl⟩

/-- Every item of a successful chunk response with a truthy token ends up with an
entry in the result map. -/
theorem lookup_foldl_processItem (items : List QuoteItem) :
    ∀ (results : List (String × ℚ)) (item : QuoteItem), item ∈ items →
      ∀ t : String, item.symbolToken = some t → t ≠ "" →
      ∃ p, (items.foldl processItem results).lookup t = some p := by
  induction items with
  | nil =>
    intro _ item h
    cases h
  | cons hd tl ih =>
    intro results item hmem t ht hne
    rcases List.mem_cons.1 hmem with rfl | hmem'
    · have hbase : ∃ p, (processItem results item).lookup t = some p := by
        unfold processItem
        rw [ht]
        dsimp only
        rw [if_neg hne]
        exact ⟨_, lookup_cons_self t _ results⟩
      obtain ⟨l, hl⟩ := foldl_processItem_append tl (processItem results item)
      rw [List.foldl_cons, hl]
      exact lookup_append_of_lookup l _ t hbase
    · rw [List.foldl_cons]
      exact ih (processItem results hd) item hmem' t ht hne

/-- Counterexample to Claim C5 as stated: `get_batch_quotes` chunks with the fixed
`chunk_size = 20` of src/main.py:159, so 25 tokens issue 2 chunk calls, not 3. -/
theorem batch_quotes_not_three_calls : numChunkCalls (List.replicate 25 "T") ≠ 3 := by
  decide

/-- Claim C5 (amended): `get_batch_quotes` on 25 tokens issues exactly 2 chunk
calls (its chunk size is fixed at 20), and for every input token list the merged
result map contains an entry for every truthy token returned by any successful
chunk, even when any other chunk's call fails. -/
theorem batch_quotes_chunked_merge :
    numChunkCalls (List.replicate 25 "T") = 2
  ∧ ∀ (fetch : List String → Option (List QuoteItem)) (tokens : List String)
      (chunk : List String), chunk ∈ chunksOf 20 (tokens.map String.trim) →
      ∀ items : List QuoteItem, fetch chunk = some items →
      ∀ item ∈ items, ∀ t : String, item.symbolToken = some t → t ≠ "" →
      ∃ p, (get_batch_quotes fetch tokens).lookup t = some p := by
  constructor
  · decide
  · intro fetch tokens chunk hc items hf item hmem t ht hne
    obtain ⟨pre, post, hsplit⟩ := List.append_of_mem hc
    unfold get_batch_quotes
    rw [hsplit, List.foldl_append, List.foldl_cons]
    have hmid : ∃ p,
        (processChunk fetch (pre.foldl (processChunk fetch) []) chunk).lookup t
          = some p := by
      unfold processChunk
      rw [hf]
      exact lookup_foldl_processItem items _ item hmem t ht hne
    obtain ⟨l, hl⟩ := foldl_processChunk_append fetch post _
    rw [hl]
    exact lookup_append_of_lookup l _ t hmid

/-- Witness for C5 (amended): a single successful single-token chunk yields an
entry for its token. -/
theorem batch_quotes_chunked_merge_witness :
    ∃ p, (get_batch_quotes (fun _ => some [⟨some "A", 5, 0⟩]) ["A"]).lookup "A"
      = some p :=
  batch_quotes_chunked_merge.2 (fun _ => some [⟨some "A", 5, 0⟩]) ["A"]
    (["A"].map String.trim)
    (by
      show ["A"].map String.trim ∈ [["A"].map String.trim]
      exact List.mem_singleton.2 rfl)
    [⟨some "A", 5, 0⟩] rfl
    ⟨some "A", 5, 0⟩ (by decide) "A" rfl (by decide)

/-! ## Claim C6: per-record price resolution in the quote fetcher -/

/-- Claim C6: for every quote record stored by a successful chunk, the price
recorded in the result map is the last-traded price if it is non-zero, otherwise
the previous close; and when the value so chosen exceeds `50000` it is divided by
`100` before being stored. -/
theorem recorded_price_resolution (results : List (String × ℚ)) (item : QuoteItem)
    (t : String) (ht : item.symbolToken = some t) (hne : t ≠ "") :
    (processItem results item).lookup t =
      some (let chosen := if item.ltp ≠ 0 then item.ltp else item.close
            if chosen > 50000 then chosen / 100 else chosen) := by
  unfold processItem
  rw [ht]
  simp only [if_neg hne]
  by_cases h : item.ltp = 0 <;> simp [List.lookup, h]

/-- Witness for C6: a record with `ltp = 60000` (paise-scaled) and `close = 0`
is stored as `600`. -/
theorem recorded_price_resolution_witness :
    (processItem [] ⟨some "X", 60000, 0⟩).lookup "X" = some 600 := by
  have h := recorded_price_resolution [] ⟨some "X", 60000, 0⟩ "X" rfl (by decide)
  rw [h]
  norm_num

/-! ## Claim C9: cache load immediately after a successful refresh -/

/-- Claim C9: a cache load performed immediately after a successful refresh
returns exactly the set of records the refresh produced and persisted — each
retained record already normalized (raw strike divided by 100 into
`strike_real`, token stripped of any trailing fractional suffix, exchange
segment uppercased and trimmed) — with no further transformation applied on the
load path. -/
theorem cache_load_after_refresh (fs : CacheFS) (data : List RawItem)
    (d2 : Option (List RawItem))
    (hstale : fs.contents = none ∨ ¬fs.ageHours < 12) :
    (load_token_master fs (some data)).1 = filterMaster data
  ∧ load_token_master (load_token_master fs (some data)).2 d2
      = ((load_token_master fs (some data)).1, (load_token_master fs (some data)).2)
  ∧ ∀ x ∈ (load_token_master fs (some data)).1, ∃ raw ∈ data,
      x = normalizeItem raw
    ∧ x.token = ((raw.token.splitOn ".").headD "").trim
    ∧ x.exch_seg = raw.exch_seg.toUpper.trim
    ∧ (∀ q, raw.strike = some q → x.strike_real = q / 100)
    ∧ (raw.strike = none → x.strike_real = 0) := by
  have href : load_token_master fs (some data)
      = (filterMaster data, ⟨some (filterMaster data), 0⟩) := by
    rcases hc : fs.contents with _ | items
    · unfold load_token_master
      rw [hc]
    · rcases hstale with h | h
      · rw [hc] at h
        cases h
      · unfold load_token_master
        rw [hc]
        dsimp only
        rw [if_neg h]
  refine ⟨by rw [href], ?_, ?_⟩
  · rw [href]
    unfold load_token_master
    dsimp only
    rw [if_pos (by norm_num : (0:ℚ) < 12)]
  · intro x hx
    rw [href] at hx
    dsimp only at hx
    unfold filterMaster at hx
    obtain ⟨raw, hrawmem, rfl⟩ := List.mem_map.1 hx
    refine ⟨raw, (List.mem_filter.1 hrawmem).1, rfl, rfl, rfl, ?_, ?_⟩
    · intro q hq
      unfold normalizeItem
      dsimp only
      rw [hq]
    · intro hq
      unfold normalizeItem
      dsimp only
      rw [hq]

/-- Witness for C9: refreshing an empty, file-less cache with one raw record and
loading again immediately. -/
theorem cache_load_after_refresh_witness :
    (load_token_master ⟨none, 0⟩ (some [sampleRaw])).1 = filterMaster [sampleRaw]
  ∧ load_token_master (load_token_master ⟨none, 0⟩ (some [sampleRaw])).2 none
      = ((load_token_master ⟨none, 0⟩ (some [sampleRaw])).1,
         (load_token_master ⟨none, 0⟩ (some [sampleRaw])).2)
  ∧ ∀ x ∈ (load_token_master ⟨none, 0⟩ (some [sampleRaw])).1, ∃ raw ∈ [sampleRaw],
      x = normalizeItem raw
    ∧ x.token = ((raw.token.splitOn ".").headD "").trim
    ∧ x.exch_seg = raw.exch_seg.toUpper.trim
    ∧ (∀ q, raw.strike = some q → x.strike_real = q / 100)
    ∧ (raw.strike = none → x.strike_real = 0) :=
  cache_load_after_refresh ⟨none, 0⟩ [sampleRaw] none (Or.inl rfl)

end AngelOptions
